import Mathlib

set_option maxHeartbeats 1000000

/-!
Shallow embedding of the bitmask tile-corner assembly engine of the
hypnagogic repository (hypnagogic_core), together with proofs about it.

Adjacency values are modelled as their `u16` bit patterns (`Nat`), matching
`bitflags` semantics: N=1, S=2, E=4, W=8, NE=16, SE=32, SW=64, NW=128,
INNER_EDGE=256, OUTER_EDGE=512.  A bit pattern is valid iff it is < 1024.
Rust panics (`unimplemented!`, index underflow/overflow) are modelled with
`Option`/dedicated outcome constructors, never with default values on a
reachable path.
-/

inductive Direction where
  | N | S | E | W | NE | SE | SW | NW
deriving DecidableEq

inductive Corner where
  | NorthEast | SouthEast | SouthWest | NorthWest
deriving DecidableEq

inductive CornerType where
  | Convex | Concave | Horizontal | Vertical | Flat
  | BottomRightInner | BottomLeftInner | TopRightInner | TopLeftInner
  | BottomRightOuter | BottomLeftOuter | TopRightOuter | TopLeftOuter
deriving DecidableEq

inductive CornerSet where
  | Cardinal | StandardDiagonal | CornerDiagonal
deriving DecidableEq

inductive DirectionStrategy where
  | Standard | Cardinals | CardinalsRotated | All
deriving DecidableEq

/-- `bitflags` `contains`: all bits of `flag` are present in `a`. -/
def adj_contains (a flag : Nat) : Bool := a &&& flag == flag

/-- `bitflags` `intersects`: some bit of `m` is present in `a`. -/
def adj_intersects (a m : Nat) : Bool := a &&& m != 0

/-- `bitflags` `difference` over the `u16` carrier: `a & !m`. -/
def adj_diff (a m : Nat) : Nat := a &&& (65535 ^^^ m)

/-- `Adjacency::EDGES` = INNER_EDGE | OUTER_EDGE. -/
def adjEDGES : Nat := 768

/-- `Adjacency::corner_sides`, `(vertical, horizontal)` side bits of a corner
bit; the Rust function panics on a non-corner argument (modelled `none`). -/
def corner_sides (a : Nat) : Option (Nat × Nat) :=
  let d := adj_diff a adjEDGES
  if d = 16 then some (1, 4)        -- NE ↦ (N, E)
  else if d = 32 then some (2, 4)   -- SE ↦ (S, E)
  else if d = 64 then some (2, 8)   -- SW ↦ (S, W)
  else if d = 128 then some (1, 8)  -- NW ↦ (N, W)
  else none

/-- `Adjacency::adjacent_corners_filled` (panic of `corner_sides` propagated). -/
def adjacent_corners_filled (a c : Nat) : Option Bool :=
  (corner_sides c).map (fun p => adj_contains a p.1 && adj_contains a p.2)

/-- `Adjacency::has_no_orphaned_corner`: every diagonal bit present has both
of its component sides present.  The diagonal arguments are literal corner
bits, so `adjacent_corners_filled` never hits its panic branch; `getD false`
is the (unreachable) panic default. -/
def has_no_orphaned_corner (a : Nat) : Bool :=
  if adj_contains a 16 && !((adjacent_corners_filled a 16).getD false) then false
  else if adj_contains a 32 && !((adjacent_corners_filled a 32).getD false) then false
  else if adj_contains a 64 && !((adjacent_corners_filled a 64).getD false) then false
  else if adj_contains a 128 && !((adjacent_corners_filled a 128).getD false) then false
  else true

/-- `Adjacency::from_corner`. -/
def from_corner : Corner → Nat
  | .NorthEast => 16
  | .SouthEast => 32
  | .SouthWest => 64
  | .NorthWest => 128

/-- `Adjacency::get_corner_type`: classification of the quadrant of `a` at
corner `c`.  The `none` arm of `corner_sides` is unreachable because
`from_corner` always produces a corner bit. -/
def get_corner_type (a : Nat) (c : Corner) : CornerType :=
  let adjCorner := from_corner c
  match corner_sides adjCorner with
  | none => CornerType.Convex
  | some (vertical, horizontal) =>
    if adj_intersects a adjEDGES then
      let d := adj_diff a adjEDGES
      if d = 6 then .BottomRightInner         -- S|E
      else if d = 10 then .BottomLeftInner    -- S|W
      else if d = 5 then .TopRightInner       -- N|E
      else if d = 9 then .TopLeftInner        -- N|W
      else if d = 38 then .BottomRightOuter   -- S|E|SE
      else if d = 74 then .BottomLeftOuter    -- S|W|SW
      else if d = 21 then .TopRightOuter      -- N|E|NE
      else if d = 137 then .TopLeftOuter      -- N|W|NW
      else .Convex
    else if adj_contains a vertical && adj_contains a horizontal then
      if adj_contains a adjCorner then .Flat else .Concave
    else if adj_contains a vertical then .Vertical
    else if adj_contains a horizontal then .Horizontal
    else .Convex

/-- The ten single flags in the order used by `set_flags_vec`. -/
def adjacencyFlagList : List Nat := [1, 2, 4, 8, 16, 32, 64, 128, 256, 512]

/-- `Adjacency::set_flags_vec`. -/
def set_flags_vec (a : Nat) : List Nat :=
  adjacencyFlagList.filter (fun f => adj_contains a f)

/-- `Adjacency::rotate_dir`; the `unimplemented!` arms are `none`. -/
def rotate_dir (a : Nat) (d : Direction) : Option Nat :=
  match d with
  | .N =>  -- 180 degree rotation
    if a = 1 then some 2 else if a = 2 then some 1
    else if a = 4 then some 8 else if a = 8 then some 4
    else if a = 16 then some 64 else if a = 32 then some 128
    else if a = 64 then some 16 else if a = 128 then some 32
    else none
  | .S => some a  -- no rotation needed
  | .E =>  -- counter-clockwise 90 degrees
    if a = 1 then some 8 else if a = 2 then some 4
    else if a = 4 then some 1 else if a = 8 then some 2
    else if a = 16 then some 128 else if a = 32 then some 16
    else if a = 64 then some 32 else if a = 128 then some 64
    else none
  | .W =>  -- clockwise 90 degrees
    if a = 1 then some 4 else if a = 2 then some 8
    else if a = 4 then some 2 else if a = 8 then some 1
    else if a = 16 then some 32 else if a = 32 then some 64
    else if a = 64 then some 128 else if a = 128 then some 16
    else none
  | _ => none  -- rotating to diagonals is unimplemented

/-- `Adjacency::rotate_to`: OR of the rotated singletons, the value itself
when no flag is set; a panic in any `rotate_dir` call propagates. -/
def rotate_to (a : Nat) (d : Direction) : Option Nat :=
  ((set_flags_vec a).mapM (fun x => rotate_dir x d)).map
    (fun l =>
      match l with
      | [] => a
      | x :: xs => xs.foldl (fun accum item => accum ||| item) x)

/-- `Adjacency::diagonal_cardinals()` = [N|E, S|E, S|W, N|W]. -/
def diagonal_cardinals : List Nat := [5, 6, 10, 9]

/-- `Adjacency::filled_diagonals()`: each diagonal together with its two
sides (the `none` arm is the unreachable `corner_sides` panic). -/
def filled_diagonals : List Nat :=
  [16, 32, 64, 128].map (fun adjacency =>
    match corner_sides adjacency with
    | some p => adjacency ||| p.1 ||| p.2
    | none => adjacency)

/-- `CornerSet::possible_bit_states`. -/
def possible_bit_states : CornerSet → Nat
  | .Cardinal => 16
  | .StandardDiagonal => 256
  | .CornerDiagonal => 256

/-- `CornerSet::output_adjacencies`. -/
def output_adjacencies (cs : CornerSet) : List Nat :=
  match cs with
  | .CornerDiagonal =>
    (List.range 256).flatMap (fun bits =>
      if bits ∈ diagonal_cardinals then [bits, bits ||| 256]
      else if bits ∈ filled_diagonals then [bits, bits ||| 512]
      else [bits])
  | _ => List.range (possible_bit_states cs)

/-- `CornerSet::corners_used`. -/
def corners_used : CornerSet → List CornerType
  | .Cardinal => [.Convex, .Concave, .Horizontal, .Vertical]
  | .StandardDiagonal => [.Convex, .Concave, .Horizontal, .Vertical, .Flat]
  | .CornerDiagonal =>
    [.Convex, .Concave, .Horizontal, .Vertical, .Flat,
     .BottomRightInner, .BottomLeftInner, .TopRightInner, .TopLeftInner,
     .BottomRightOuter, .BottomLeftOuter, .TopRightOuter, .TopLeftOuter]

/-- `Direction::dmi_cardinals()`. -/
def dmi_cardinals : List Direction := [.S, .N, .E, .W]

/-- `Direction::dmi_all()`. -/
def dmi_all : List Direction := [.S, .N, .E, .W, .SE, .SW, .NE, .NW]

/-- `DirectionStrategy::input_vec` (`STANDARD = S`). -/
def input_vec : DirectionStrategy → List Direction
  | .Standard => [.S]
  | .Cardinals => dmi_cardinals
  | .CardinalsRotated => [.S]
  | .All => dmi_all

/-- `DirectionStrategy::output_vec`. -/
def output_vec (s : DirectionStrategy) : List Direction :=
  match s with
  | .CardinalsRotated => dmi_cardinals
  | _ => input_vec s

/-- Little-endian decimal digits, fuel-structured so the kernel can
evaluate it (`fuel = n` always suffices since `n / 10 < n` for `n > 0`). -/
def digitsLEGo : Nat → Nat → List Nat
  | 0, _ => []
  | fuel + 1, n => if n = 0 then [] else n % 10 :: digitsLEGo fuel (n / 10)

def digitsLE (n : Nat) : List Nat := digitsLEGo n n

def digitChar10 (d : Nat) : Char := Char.ofNat (48 + d)

/-- Decimal rendering of a natural number, as `u16::to_string` produces. -/
def decChars (n : Nat) : List Char :=
  if n = 0 then ['0'] else (digitsLE n).reverse.map digitChar10

/-- `Adjacency::pretty_print`, character data: decimal of `bits & !EDGES`,
suffixed by "-d" iff an EDGES bit is set. -/
def pretty_data (a : Nat) : List Char :=
  decChars (adj_diff a adjEDGES) ++
    (if adj_intersects a adjEDGES then ['-', 'd'] else [])

def pretty_print (a : Nat) : String := String.mk (pretty_data a)

def isDigitChar (c : Char) : Bool := 48 ≤ c.toNat && c.toNat ≤ 57

/-- Value of a big-endian decimal digit string. -/
def charsVal (cs : List Char) : Nat :=
  cs.foldl (fun acc c => acc * 10 + (c.toNat - 48)) 0

/-- `str::parse::<u16>` on ASCII data: digits only, non-empty, value within
`u16` range (sign handling omitted; no input in this development carries a
sign). -/
def parse_u16 (cs : List Char) : Option Nat :=
  if cs.isEmpty then none
  else if cs.all isDigitChar then
    if charsVal cs ≤ 65535 then some (charsVal cs) else none
  else none

inductive ParseOutcome where
  | ok (bits : Nat)
  | err
  | panic
deriving DecidableEq

/-- `Adjacency::from_bits` applied to a parsed number: some iff only the ten
known bits are set, i.e. the value is < 1024. -/
def parseToBits (cs : List Char) : ParseOutcome :=
  match parse_u16 cs with
  | none => .err
  | some n => if n < 1024 then .ok n else .err

/-- `<Adjacency as FromStr>::from_str` on character data.  `find("d")`
returning index 0 makes `remove(d_location - 1)` underflow `usize` and
panic; otherwise the 'd' and the character before it are removed and the
rest is parsed. -/
def from_str (cs : List Char) : ParseOutcome :=
  match cs.findIdx? (fun c => c = 'd') with
  | some 0 => .panic
  | some (i + 1) => parseToBits ((cs.eraseIdx (i + 1)).eraseIdx i)
  | none => parseToBits cs

inductive WidthCheckResult where
  | ok
  | offByOne (expected actual expectedInputs realityInputs : Nat)
  | offByDirection (expected actual directionCount actualDirection : Nat)
  | improper (expected actual : Nat)
deriving DecidableEq

/-- The fract-tolerance test of Step 1's second branch,
`(actual as f32 / direction_width).fract().abs() < 0.001`, in exact
rationals.  An f32 division by a zero `direction_width` yields a non-finite
value for which the comparison is false, hence the `0 < dw` guard. -/
def fract_below_tolerance (actual dw : Nat) : Prop :=
  0 < dw ∧ |Int.fract ((actual : ℚ) / (dw : ℚ))| < 1 / 1000

instance (actual dw : Nat) : Decidable (fract_below_tolerance actual dw) :=
  inferInstanceAs (Decidable (_ ∧ _))

/-- Step 1 of `BitmaskSlice::perform_operation` (lines 92-131): atlas width
validation against `D * (P + F) * icon_size.x`. -/
def width_check (directionCount positionCount prefabCount iconX actual : Nat) :
    WidthCheckResult :=
  let expected := directionCount * (positionCount + prefabCount) * iconX
  if expected = actual then .ok
  else if Nat.dist expected actual = directionCount * iconX then
    .offByOne expected actual (expected / iconX) (actual / iconX)
  else if fract_below_tolerance actual (expected / directionCount) then
    .offByDirection expected actual directionCount
      (actual / ((positionCount + prefabCount) * iconX))
  else .improper expected actual

/-- Name of the icon state emitted for one adjacency. -/
def state_name (outputName : Option String) (a : Nat) : String :=
  match outputName with
  | some prefName => prefName ++ "-" ++ pretty_print a
  | none => pretty_print a

/-- The icon-state names emitted by the adjacency loop of
`BitmaskSlice::perform_operation` (lines 160-200): one state per
orphan-free adjacency of the output type, named by `pretty_print`. -/
def slice_state_names (outputName : Option String) (outputType : CornerSet) :
    List String :=
  ((output_adjacencies outputType).filter has_no_orphaned_corner).map
    (state_name outputName)

/-- `animated_blocks[index].push(image)` for every `(index, image)` of one
direction's frame list.  A frame list longer than the block list would index
out of bounds in Rust (modelled `none`). -/
def push_frames {α : Type} : List (List α) → List α → Option (List (List α))
  | blocks, [] => some blocks
  | [], _ :: _ => none
  | b :: bs, x :: xs => (push_frames bs xs).map (fun r => (b ++ [x]) :: r)

/-- Per-direction frame lookup of the icon-state loop: the standard
direction's library under the rotated adjacency for CardinalsRotated, the
direction's own library under the unchanged adjacency otherwise. -/
def lookup_frames {α : Type} (strategy : DirectionStrategy)
    (assembled : Direction → Nat → List α) (adjacency : Nat) (d : Direction) :
    Option (List α) :=
  match strategy with
  | .CardinalsRotated => (rotate_to adjacency d).map (fun r => assembled .S r)
  | _ => some (assembled d adjacency)

/-- Image sequence of one emitted icon state, before `dedupe_frames`:
`num_frames` animated blocks, one frame pushed per output direction in
order, then flattened frame-major. -/
def slice_state_images {α : Type} (strategy : DirectionStrategy)
    (assembled : Direction → Nat → List α) (adjacency : Nat)
    (numFrames : Nat) : Option (List α) :=
  ((output_vec strategy).foldlM
      (fun blocks d => do
        let nextFrame ← lookup_frames strategy assembled adjacency d
        push_frames blocks nextFrame)
      (List.replicate numFrames ([] : List α))).map List.flatten

/-- `dirs` field of every state the adjacency loop emits. -/
def slice_dir_count (s : DirectionStrategy) : Nat := (output_vec s).length

/-- `dmi::icon::IconState`, restricted to the fields the core reads and
writes.  Images are an arbitrary type with decidable equality; delays are
exact rationals standing for the `f32` values (all claims in this
development only ever add and compare them at exactly representable
points). -/
structure IconState (α : Type) where
  name : String
  dirs : Nat
  frames : Nat
  images : List α
  delay : Option (List ℚ)
  rewind : Bool
deriving DecidableEq

/-- Fuel-structured worker for `chunks_exact`, so that the kernel can
evaluate it; `fuel = l.length` always suffices. -/
def chunks_exact_go {α : Type} (k : Nat) : Nat → List α → List (List α)
  | 0, _ => []
  | fuel + 1, l =>
    if k = 0 ∨ l.length < k then []
    else l.take k :: chunks_exact_go k fuel (l.drop k)

/-- `slice::chunks_exact(k)`: only the complete length-`k` chunks, the
remainder dropped.  Rust panics on `k = 0`; `dedupe_frames` guards that
case before ever calling this. -/
def chunks_exact {α : Type} (k : Nat) (l : List α) : List (List α) :=
  chunks_exact_go k l.length l

/-- Accumulator of the `dedupe_frames` fold. -/
structure AccumulatedAnim (α : Type) where
  delays : List ℚ
  frames : List (List α)
  current_frame : Nat
deriving DecidableEq

/-- The fold body of `dedupe_frames`: a direction-group equal to the
previous one folds its delay into the previous entry, any other group is
appended.  `getD` models the in-bounds indexing
`acc.frames[acc.current_frame - 1]` (in bounds whenever
`current_frame = frames.length ≠ 0`, which the fold maintains). -/
def dedupe_fold {α : Type} [DecidableEq α] :
    List (ℚ × List α) → AccumulatedAnim α → AccumulatedAnim α
  | [], acc => acc
  | (currentDelay, images) :: rest, acc =>
    if acc.current_frame ≠ 0 ∧ acc.frames.getD (acc.current_frame - 1) [] = images then
      dedupe_fold rest
        { acc with
          delays := acc.delays.set (acc.current_frame - 1)
            (acc.delays.getD (acc.current_frame - 1) 0 + currentDelay) }
    else
      dedupe_fold rest
        { delays := acc.delays ++ [currentDelay],
          frames := acc.frames ++ [images],
          current_frame := acc.current_frame + 1 }

/-- `util::icon_ops::dedupe_frames`.  `none` models the `chunks_exact(0)`
panic on a zero-direction state; every other state returns. -/
def dedupe_frames {α : Type} [DecidableEq α] (icon_state : IconState α) :
    Option (IconState α) :=
  if icon_state.frames ≤ 1 then some icon_state
  else
    match icon_state.delay with
    | none => some icon_state
    | some currentDelays =>
      if icon_state.dirs = 0 then none
      else
        let delayBucket := chunks_exact icon_state.dirs icon_state.images
        let deduped := dedupe_fold (currentDelays.zip delayBucket) ⟨[], [], 0⟩
        some { icon_state with
          frames := deduped.current_frame,
          images := deduped.frames.flatten,
          delay := some deduped.delays }

/-- `str::split('-')` at character level. -/
def splitOnChar (sep : Char) : List Char → List (List Char)
  | [] => [[]]
  | c :: rest =>
    if c = sep then [] :: splitOnChar sep rest
    else
      match splitOnChar sep rest with
      | [] => [[c]]
      | p :: ps => (c :: p) :: ps

/-- First hyphen-part of a state name, and the hyphen-joined remainder when
the name is hyphenated (`split_name.next()` /
`split_name.reduce(format "{acc}-{elm}")`). -/
def name_parts (name : List Char) : List Char × Option (List Char) :=
  match splitOnChar '-' name with
  | [] => ([], none)
  | p :: rest =>
    (p, if rest.isEmpty then none else some (List.intercalate ['-'] rest))

/-- Prefix detection from the first icon state
(`BitmaskSliceReconstruct::perform_operation` lines 51-61). -/
def detected_pre (names : List (List Char)) : Option (List Char) :=
  match names with
  | [] => none
  | first :: _ =>
    match (name_parts first).2 with
    | none => none
    | some _ => some (name_parts first).1

/-- The `problem_entries` of the prefix-consistency pass (lines 63-88):
hyphenated names whose first part differs from the detected prefix. -/
def inconsistent_names (names : List (List Char)) : List (List Char) :=
  names.filter (fun nm =>
    (name_parts nm).2.isSome &&
      decide ((name_parts nm).1 ≠ (detected_pre names).getD []))

/-- The dropped-state walk (lines 110-128): every suffix is first fed to
`suffix.parse::<Adjacency>()` — whose panic propagates (`none`) — and an
unparsable suffix not among the selected ones is kept as "(suffix)". -/
def classify_ignored (suffixes caught : List (List Char)) :
    Option (List (List Char)) :=
  match suffixes with
  | [] => some []
  | s :: rest =>
    match from_str s with
    | .panic => none
    | .ok _ => classify_ignored rest caught
    | .err =>
      if s ∈ caught then classify_ignored rest caught
      else (classify_ignored rest caught).map (fun l => (('(' :: s) ++ [')']) :: l)

inductive ReconOutcome where
  | panic
  | inconsistentNames (joined : List Char)
  | dropped (joined : List Char)
  | selected (suffixes : List (List Char))
deriving DecidableEq

/-- State selection and classification of
`BitmaskSliceReconstruct::perform_operation` (lines 43-134) for a
configuration with no `bespoke` map: prefix consistency, selection of the
suffixes listed in `extract`, then the dropped-state check. -/
def recon_classify (names extract : List (List Char)) : ReconOutcome :=
  let problems := inconsistent_names names
  if problems ≠ [] then .inconsistentNames (List.intercalate [',', ' '] problems)
  else
    let suffixes := names.map (fun nm => (name_parts nm).2.getD (name_parts nm).1)
    let caught := suffixes.filter (fun s => s ∈ extract)
    match classify_ignored suffixes caught with
    | none => .panic
    | some [] => .selected caught
    | some droppedList => .dropped (List.intercalate [',', ' '] droppedList)

inductive ExpandOutcome (α : Type) where
  | ok (grouped : List (List α))
  | inconsistent
  | panic
deriving DecidableEq

/-- The inner while of the frame-expansion walk (lines 227-231):
`while delay_to_process > 0.0 && delay_index <= real_delays.len()`,
subtracting `real_delays[delay_index]` and pushing one copy of the frame
block per step.  Entering the body with `delay_index = len` indexes out of
bounds and panics (`none`).  Returns the remaining delay, the next delay
index and the number of copies pushed. -/
def expand_while_go (real : List ℚ) :
    Nat → ℚ → Nat → Nat → Option (ℚ × Nat × Nat)
  | fuel, delayToProcess, delayIndex, pushed =>
    if delayToProcess > 0 ∧ delayIndex ≤ real.length then
      if h2 : delayIndex < real.length then
        match fuel with
        | 0 => none  -- fuel exhausted, unreachable from `expand_while`
        | fuel' + 1 =>
          expand_while_go real fuel' (delayToProcess - real.get ⟨delayIndex, h2⟩)
            (delayIndex + 1) (pushed + 1)
      else none
    else some (delayToProcess, delayIndex, pushed)

def expand_while (real : List ℚ) (delayToProcess : ℚ) (delayIndex pushed : Nat) :
    Option (ℚ × Nat × Nat) :=
  expand_while_go real (real.length - delayIndex) delayToProcess delayIndex pushed

/-- The frame-expansion for loop (lines 223-236): each (frame delay, frame
block) pair is duplicated once per canonical step it spans; a pair whose
remaining delay does not round to zero marks the state broken. -/
def expand_frames {α : Type} (real : List ℚ) :
    List (ℚ × List α) → Nat → ExpandOutcome α
  | [], _ => .ok []
  | (d, frame) :: rest, delayIndex =>
    match expand_while real d delayIndex 0 with
    | none => .panic
    | some (remaining, nextIndex, copies) =>
      if round remaining ≠ 0 then .inconsistent
      else
        match expand_frames real rest nextIndex with
        | .ok groups => .ok (List.replicate copies frame ++ groups)
        | other => other

/-- The per-state `grouped_frames` computation of
`BitmaskSliceReconstruct::perform_operation` (lines 203-250): `delays` is
the canonical delay vector and `delay_count` its sum (line 186); a selected
state whose delay vector differs from a defined canonical vector goes
through the `(delay_count - frame_count).abs() < 0.001` comparison and, when
that fails, the expansion walk; otherwise its chunks pass through. -/
def recon_grouped_frames {α : Type} (delays stateDelay : Option (List ℚ))
    (chunks : List (List α)) : ExpandOutcome α :=
  let delay_count : ℚ := (delays.getD []).sum
  if delays ≠ stateDelay ∧ delays.isSome then
    let frame_delays := stateDelay.getD [delay_count]
    let frame_count := frame_delays.sum
    if |delay_count - frame_count| < 1 / 1000 then .inconsistent
    else expand_frames (delays.getD []) (frame_delays.zip chunks) 0
  else .ok chunks


/-- Value of a little-endian digit list. -/
def val10r (l : List Nat) : Nat := l.foldr (fun d acc => acc * 10 + d) 0

/-- The pair of data `pretty_print` is built from. -/
def nameKey (a : Nat) : Nat × Bool := (adj_diff a adjEDGES, adj_intersects a adjEDGES)

/-- The same key packed into one natural number. -/
def nameKeyN (a : Nat) : Nat :=
  2 * (nameKey a).1 + (if (nameKey a).2 = true then 1 else 0)

/-- Linear strict-increase check, used to certify the enumeration orders. -/
def strictIncreasing : List Nat → Bool
  | [] => true
  | [_] => true
  | x :: y :: rest => decide (x < y) && strictIncreasing (y :: rest)

/-- The eight single-bit directional adjacencies the rotation tables cover. -/
def single_bit_adjacencies : List Nat := [1, 2, 4, 8, 16, 32, 64, 128]

/-- One column of the pushed frame lists: the entries at index `f`. -/
def column {α : Type} (f : Nat) (ls : List (List α)) : List α :=
  ls.filterMap (fun l => l.get? f)

/-! ### Facts about the decimal rendering -/


theorem val10r_digitsLEGo : ∀ fuel n, n ≤ fuel → val10r (digitsLEGo fuel n) = n := by
  intro fuel
  induction fuel with
  | zero =>
    intro n h
    have : n = 0 := Nat.le_zero.mp h
    subst this
    rfl
  | succ fuel ih =>
    intro n h
    by_cases h0 : n = 0
    · subst h0
      simp [digitsLEGo, val10r]
    · have hstep : digitsLEGo (fuel + 1) n = n % 10 :: digitsLEGo fuel (n / 10) := by
        simp [digitsLEGo, h0]
      have hdiv : n / 10 ≤ fuel := by
        have : n / 10 < n := Nat.div_lt_self (Nat.pos_of_ne_zero h0) (by norm_num)
        omega
      rw [hstep]
      have : val10r (n % 10 :: digitsLEGo fuel (n / 10)) =
          val10r (digitsLEGo fuel (n / 10)) * 10 + n % 10 := rfl
      rw [this, ih (n / 10) hdiv]
      omega

theorem digitsLEGo_lt_ten : ∀ fuel n d, d ∈ digitsLEGo fuel n → d < 10 := by
  intro fuel
  induction fuel with
  | zero => intro n d h; simp [digitsLEGo] at h
  | succ fuel ih =>
    intro n d h
    by_cases h0 : n = 0
    · subst h0; simp [digitsLEGo] at h
    · simp only [digitsLEGo, h0, if_false, List.mem_cons] at h
      rcases h with h | h
      · subst h; exact Nat.mod_lt _ (by norm_num)
      · exact ih _ _ h

theorem digitChar10_toNat : ∀ d, d < 10 → (digitChar10 d).toNat = 48 + d := by decide

theorem charsVal_reverse_map (l : List Nat) (h : ∀ d ∈ l, d < 10) :
    charsVal (l.reverse.map digitChar10) = val10r l := by
  induction l with
  | nil => rfl
  | cons d rest ih =>
    have hd : d < 10 := h d (List.mem_cons_self d rest)
    have hrest : ∀ x ∈ rest, x < 10 := fun x hx => h x (List.mem_cons_of_mem d hx)
    simp only [List.reverse_cons, List.map_append, List.map_cons, List.map_nil]
    unfold charsVal
    rw [List.foldl_append]
    have : val10r (d :: rest) = val10r rest * 10 + d := rfl
    rw [this, ← ih hrest]
    simp [charsVal, digitChar10_toNat d hd]

theorem charsVal_decChars (n : Nat) : charsVal (decChars n) = n := by
  unfold decChars
  by_cases h0 : n = 0
  · subst h0; rfl
  · rw [if_neg h0]
    unfold digitsLE
    rw [charsVal_reverse_map _ (fun d hd => digitsLEGo_lt_ten n n d hd),
      val10r_digitsLEGo n n (le_refl n)]

theorem decChars_inj {a b : Nat} (h : decChars a = decChars b) : a = b := by
  rw [← charsVal_decChars a, ← charsVal_decChars b, h]

theorem decChars_isDigit (n : Nat) : ∀ c ∈ decChars n, isDigitChar c = true := by
  intro c hc
  unfold decChars at hc
  by_cases h0 : n = 0
  · rw [if_pos h0] at hc
    simp at hc
    subst hc
    decide
  · rw [if_neg h0] at hc
    rcases List.mem_map.mp hc with ⟨d, hd, rfl⟩
    have hlt : d < 10 := digitsLEGo_lt_ten n n d (List.mem_reverse.mp hd)
    have hdig : ∀ x, x < 10 → isDigitChar (digitChar10 x) = true := by decide
    exact hdig d hlt

theorem decChars_ne_nil (n : Nat) : decChars n ≠ [] := by
  unfold decChars
  by_cases h0 : n = 0
  · rw [if_pos h0]; simp
  · rw [if_neg h0]
    obtain ⟨m, rfl⟩ := Nat.exists_eq_succ_of_ne_zero h0
    simp [digitsLE, digitsLEGo]

theorem not_mem_decChars_of_toNat (n : Nat) (c : Char) (hc : 57 < c.toNat ∨ c.toNat < 48) :
    c ∉ decChars n := by
  intro hmem
  have := decChars_isDigit n c hmem
  unfold isDigitChar at this
  simp only [Bool.and_eq_true, decide_eq_true_eq] at this
  omega

theorem d_not_mem_decChars (n : Nat) : 'd' ∉ decChars n :=
  not_mem_decChars_of_toNat n 'd' (Or.inl (by decide))

theorem parse_u16_decChars (n : Nat) (h : n ≤ 65535) : parse_u16 (decChars n) = some n := by
  unfold parse_u16
  rw [if_neg (by simp [List.isEmpty_iff, decChars_ne_nil n]),
    if_pos (List.all_eq_true.mpr (decChars_isDigit n)), charsVal_decChars,
    if_pos h]

/-! ### pretty_print: injectivity on valid bit patterns -/

theorem minus_not_mem_decChars (n : Nat) : '-' ∉ decChars n :=
  not_mem_decChars_of_toNat n '-' (Or.inr (by decide))

theorem pretty_data_inj {a b : Nat} (h : pretty_data a = pretty_data b) :
    adj_diff a adjEDGES = adj_diff b adjEDGES ∧
      adj_intersects a adjEDGES = adj_intersects b adjEDGES := by
  unfold pretty_data at h
  by_cases hA : adj_intersects a adjEDGES = true <;>
    by_cases hB : adj_intersects b adjEDGES = true
  · rw [if_pos hA, if_pos hB] at h
    exact ⟨decChars_inj (List.append_cancel_right h), by rw [hA, hB]⟩
  · rw [if_pos hA, if_neg hB, List.append_nil] at h
    exact absurd (h ▸ List.mem_append_right _ (by simp) :
      'd' ∈ decChars (adj_diff b adjEDGES)) (d_not_mem_decChars _)
  · rw [if_neg hA, if_pos hB, List.append_nil] at h
    exact absurd (h ▸ List.mem_append_right _ (by simp) :
      'd' ∈ decChars (adj_diff a adjEDGES)) (d_not_mem_decChars _)
  · rw [if_neg hA, if_neg hB, List.append_nil, List.append_nil] at h
    simp only [Bool.not_eq_true] at hA hB
    exact ⟨decChars_inj h, by rw [hA, hB]⟩


theorem pretty_data_inj_key {a b : Nat} (h : pretty_data a = pretty_data b) :
    nameKey a = nameKey b := by
  obtain ⟨h1, h2⟩ := pretty_data_inj h
  simp [nameKey, h1, h2]

set_option maxRecDepth 10000 in
theorem adj_diff_eq_self_of_lt : ∀ a < 256, adj_diff a adjEDGES = a := by decide

set_option maxRecDepth 40000 in
theorem adj_diff_edges_eq_low8 : ∀ x < 1024, adj_diff x adjEDGES = x &&& 255 := by
  decide

theorem strictIncreasing_chain :
    ∀ l : List Nat, strictIncreasing l = true →
      List.Chain' (fun x y => x < y) l := by
  intro l
  induction l with
  | nil => intro _; exact List.chain'_nil
  | cons x rest ih =>
    cases rest with
    | nil => intro _; exact List.chain'_singleton x
    | cons y rest' =>
      intro h
      simp only [strictIncreasing, Bool.and_eq_true, decide_eq_true_eq] at h
      exact List.Chain'.cons h.1 (ih h.2)

set_option maxRecDepth 10000 in
theorem cd_keys_sorted :
    strictIncreasing ((output_adjacencies .CornerDiagonal).map nameKeyN) = true := by
  decide

theorem cd_map_nodup : (((output_adjacencies .CornerDiagonal).map nameKeyN)).Nodup :=
  (List.chain'_iff_pairwise.mp (strictIncreasing_chain _ cd_keys_sorted)).imp
    (fun h => Nat.ne_of_lt h)

theorem corner_diagonal_inj : ∀ a ∈ output_adjacencies .CornerDiagonal,
    ∀ b ∈ output_adjacencies .CornerDiagonal, nameKey a = nameKey b → a = b := by
  intro a ha b hb h
  exact List.inj_on_of_nodup_map cd_map_nodup ha hb (by simp only [nameKeyN, h])

/-- On each enumeration of output adjacencies, the pretty-print key
determines the adjacency. -/
theorem output_adjacencies_inj (cs : CornerSet) :
    ∀ a ∈ output_adjacencies cs, ∀ b ∈ output_adjacencies cs,
      nameKey a = nameKey b → a = b := by
  cases cs with
  | Cardinal =>
    intro a ha b hb h
    have ha' : a < 16 := List.mem_range.mp ha
    have hb' : b < 16 := List.mem_range.mp hb
    have := congrArg Prod.fst h
    simpa [nameKey, adj_diff_eq_self_of_lt a (by omega),
      adj_diff_eq_self_of_lt b (by omega)] using this
  | StandardDiagonal =>
    intro a ha b hb h
    have ha' : a < 256 := List.mem_range.mp ha
    have hb' : b < 256 := List.mem_range.mp hb
    have := congrArg Prod.fst h
    simpa [nameKey, adj_diff_eq_self_of_lt a ha',
      adj_diff_eq_self_of_lt b hb'] using this
  | CornerDiagonal => exact corner_diagonal_inj

theorem corner_diagonal_nodup : (output_adjacencies .CornerDiagonal).Nodup :=
  List.Nodup.of_map nameKeyN cd_map_nodup

theorem output_adjacencies_nodup (cs : CornerSet) : (output_adjacencies cs).Nodup := by
  cases cs with
  | Cardinal => exact List.nodup_range _
  | StandardDiagonal => exact List.nodup_range _
  | CornerDiagonal => exact corner_diagonal_nodup

/-! ### from_str -/

theorem from_str_of_findIdx_none {cs : List Char}
    (h : cs.findIdx? (fun c => c = 'd') = none) : from_str cs = parseToBits cs := by
  unfold from_str
  rw [h]

theorem from_str_of_findIdx_succ {cs : List Char} {i : Nat}
    (h : cs.findIdx? (fun c => c = 'd') = some (i + 1)) :
    from_str cs = parseToBits ((cs.eraseIdx (i + 1)).eraseIdx i) := by
  unfold from_str
  rw [h]

theorem findIdx?_d_decChars (n : Nat) :
    (decChars n).findIdx? (fun c => c = 'd') = none := by
  rw [List.findIdx?_eq_none_iff]
  intro c hc
  simp only [decide_eq_false_iff_not]
  rintro rfl
  exact d_not_mem_decChars n hc

theorem parseToBits_decChars (n : Nat) (h : n < 1024) :
    parseToBits (decChars n) = .ok n := by
  unfold parseToBits
  rw [parse_u16_decChars n (by omega)]
  simp [h]

/-- Round-trip of the textual form through `from_str`: the "-d" suffix is
located, the 'd' and the '-' before it are removed, and the decimal is
parsed back; no INNER_EDGE bit is ever set. -/
theorem from_str_pretty_data (a : Nat) (ha : a < 1024) :
    from_str (pretty_data a) = .ok (a &&& 255) := by
  have hdiff : adj_diff a adjEDGES = a &&& 255 := adj_diff_edges_eq_low8 a ha
  have hlow : a &&& 255 < 1024 := by
    have := Nat.and_le_right (n := a) (m := 255)
    omega
  unfold pretty_data
  rw [hdiff]
  by_cases hE : adj_intersects a adjEDGES = true
  · rw [if_pos hE]
    set v := a &&& 255 with hv
    set L := decChars v with hL
    have hfind : (L ++ ['-', 'd']).findIdx? (fun c => c = 'd') =
        some (L.length + 1) := by
      rw [List.findIdx?_append, findIdx?_d_decChars, Option.none_or]
      have : (['-', 'd'] : List Char).findIdx? (fun c => c = 'd') = some 1 := by decide
      rw [this, Option.map_some']
      rw [Nat.add_comm]
    rw [from_str_of_findIdx_succ hfind]
    have e1 : (L ++ ['-', 'd']).eraseIdx (L.length + 1) = L ++ ['-'] := by
      rw [List.eraseIdx_append_of_length_le (by omega)]
      congr 1
      simp
    rw [e1]
    have e2 : (L ++ ['-']).eraseIdx L.length = L := by
      rw [List.eraseIdx_append_of_length_le (le_refl _)]
      simp
    rw [e2]
    exact parseToBits_decChars v hlow
  · rw [if_neg hE, List.append_nil]
    rw [from_str_of_findIdx_none (findIdx?_d_decChars _)]
    exact parseToBits_decChars _ hlow

/-! ### Claim C1: Slice emits exactly one state per orphan-free adjacency -/

theorem state_name_inj_data {pre : Option String} {a b : Nat}
    (h : state_name pre a = state_name pre b) : pretty_data a = pretty_data b := by
  cases pre with
  | none => exact congrArg String.data h
  | some p =>
    have hd := congrArg String.data h
    simp only [state_name, String.data_append] at hd
    exact List.append_cancel_left hd

theorem slice_names_inj (pre : Option String) (cs : CornerSet) :
    ∀ a ∈ output_adjacencies cs, ∀ b ∈ output_adjacencies cs,
      state_name pre a = state_name pre b → a = b :=
  fun a ha b hb h =>
    output_adjacencies_inj cs a ha b hb (pretty_data_inj_key (state_name_inj_data h))

theorem slice_count_of_no_orphan (pre : Option String) (cs : CornerSet) (a : Nat)
    (ha : a ∈ output_adjacencies cs) (hno : has_no_orphaned_corner a = true) :
    (slice_state_names pre cs).count (state_name pre a) = 1 := by
  unfold slice_state_names
  have hmem : a ∈ (output_adjacencies cs).filter has_no_orphaned_corner :=
    List.mem_filter.mpr ⟨ha, hno⟩
  have hnodupFl : ((output_adjacencies cs).filter has_no_orphaned_corner).Nodup :=
    (output_adjacencies_nodup cs).filter _
  have hnodup : (((output_adjacencies cs).filter has_no_orphaned_corner).map
      (state_name pre)).Nodup :=
    hnodupFl.map_on (fun x hx y hy hxy =>
      slice_names_inj pre cs x (List.mem_of_mem_filter hx) y
        (List.mem_of_mem_filter hy) hxy)
  exact List.count_eq_one_of_mem hnodup (List.mem_map_of_mem _ hmem)

theorem slice_not_mem_of_orphan (pre : Option String) (cs : CornerSet) (a : Nat)
    (ha : a ∈ output_adjacencies cs) (hor : has_no_orphaned_corner a = false) :
    state_name pre a ∉ slice_state_names pre cs := by
  intro hmem
  unfold slice_state_names at hmem
  rcases List.mem_map.mp hmem with ⟨b, hb, hname⟩
  have hbno : has_no_orphaned_corner b = true := List.of_mem_filter hb
  have hba : b = a := slice_names_inj pre cs b (List.mem_of_mem_filter hb) a ha hname
  rw [hba, hor] at hbno
  exact Bool.false_ne_true hbno

theorem mem_output_standard {x : Nat} (h : x < 256) :
    x ∈ output_adjacencies .StandardDiagonal :=
  List.mem_range.mpr h

/-- C1: for every adjacency `A` of `output_type.output_adjacencies()` with
no orphaned corner the Slice adjacency loop emits exactly one icon state
named `A.pretty_print()` (prefixed with "{output_name}-" when set), and it
emits none for an adjacency of the enumeration with an orphaned diagonal;
for StandardDiagonal no state is named "16" or "48" while exactly one is
named "23". -/
theorem slice_unique_state_names (outputName : Option String) (cs : CornerSet)
    (a : Nat) (ha : a ∈ output_adjacencies cs) :
    (has_no_orphaned_corner a = true →
      (slice_state_names outputName cs).count (state_name outputName a) = 1) ∧
    (has_no_orphaned_corner a = false →
      state_name outputName a ∉ slice_state_names outputName cs) ∧
    "16" ∉ slice_state_names none .StandardDiagonal ∧
    "48" ∉ slice_state_names none .StandardDiagonal ∧
    (slice_state_names none .StandardDiagonal).count "23" = 1 := by
  refine ⟨fun hno => slice_count_of_no_orphan outputName cs a ha hno,
    fun hor => slice_not_mem_of_orphan outputName cs a ha hor, ?_, ?_, ?_⟩
  · have h16 : ("16" : String) = state_name none 16 := by decide
    rw [h16]
    exact slice_not_mem_of_orphan none .StandardDiagonal 16
      (mem_output_standard (by norm_num)) (by decide)
  · have h48 : ("48" : String) = state_name none 48 := by decide
    rw [h48]
    exact slice_not_mem_of_orphan none .StandardDiagonal 48
      (mem_output_standard (by norm_num)) (by decide)
  · have h23 : ("23" : String) = state_name none 23 := by decide
    rw [h23]
    exact slice_count_of_no_orphan none .StandardDiagonal 23
      (mem_output_standard (by norm_num)) (by decide)

theorem slice_unique_state_names_witness :
    (slice_state_names none .StandardDiagonal).count (state_name none 23) = 1 :=
  (slice_unique_state_names none .StandardDiagonal 23
    (mem_output_standard (by norm_num))).1 (by decide)

/-! ### Claim C6: from_str after pretty_print -/

/-- C6 counterexample: the claim says `from_str("21-d")` yields the low bits
with INNER_EDGE set (`21 ||| 256 = 277`), but the code strips the suffix and
returns `Ok(21)`. -/
theorem from_str_pretty_no_inner_edge :
    from_str (pretty_print 277).data = .ok 21 ∧
      ParseOutcome.ok 21 ≠ ParseOutcome.ok (277 &&& 255 ||| 256) := by
  constructor
  · decide
  · decide

set_option maxRecDepth 40000 in
theorem low8_eq_self_of_no_edges :
    ∀ a < 1024, adj_intersects a adjEDGES = false → a &&& 255 = a := by decide

/-- C6 (amended): parsing the textual form back always succeeds, the "-d"
suffix being stripped without setting any bit: for every valid adjacency
`from_str(A.pretty_print()) = Ok(A's low 8 bits)`, in particular `Ok(A)`
when `A` has no EDGES bit. -/
theorem from_str_pretty_print_round_trip (a : Nat) (ha : a < 1024) :
    from_str (pretty_print a).data = .ok (a &&& 255) ∧
      (adj_intersects a adjEDGES = false →
        from_str (pretty_print a).data = .ok a) := by
  have hmain : from_str (pretty_print a).data = .ok (a &&& 255) :=
    from_str_pretty_data a ha
  exact ⟨hmain, fun hno => by rw [hmain, low8_eq_self_of_no_edges a ha hno]⟩

theorem from_str_pretty_print_round_trip_witness :
    from_str (pretty_print 277).data = .ok (277 &&& 255) :=
  (from_str_pretty_print_round_trip 277 (by norm_num)).1

/-! ### Claim C7: corner types used -/

/-- C7 counterexample: for `A = N|E|NE` and corner NE the classification is
Flat, which `Cardinal.corners_used()` does not contain, refuting the claim
quantified over every Adjacency for each of the three CornerSet values. -/
theorem get_corner_type_not_in_cardinal :
    get_corner_type 21 Corner.NorthEast = CornerType.Flat ∧
      CornerType.Flat ∉ corners_used CornerSet.Cardinal := by
  constructor
  · decide
  · decide

set_option maxRecDepth 100000 in
theorem get_corner_type_mem_all : ∀ cs : CornerSet,
    ∀ a ∈ output_adjacencies cs,
      get_corner_type a .NorthEast ∈ corners_used cs ∧
      get_corner_type a .SouthEast ∈ corners_used cs ∧
      get_corner_type a .SouthWest ∈ corners_used cs ∧
      get_corner_type a .NorthWest ∈ corners_used cs := by
  intro cs
  cases cs <;> decide

/-- C7 (amended): for every adjacency in `output_type.output_adjacencies()`
and every corner, the classified corner type is one of
`output_type.corners_used()`, for each of the three CornerSet values. -/
theorem get_corner_type_mem_corners_used (cs : CornerSet) (a : Nat)
    (ha : a ∈ output_adjacencies cs) (c : Corner) :
    get_corner_type a c ∈ corners_used cs := by
  obtain ⟨h1, h2, h3, h4⟩ := get_corner_type_mem_all cs a ha
  cases c
  · exact h1
  · exact h2
  · exact h3
  · exact h4

theorem get_corner_type_mem_corners_used_witness :
    get_corner_type 5 Corner.NorthEast ∈ corners_used CornerSet.Cardinal :=
  get_corner_type_mem_corners_used .Cardinal 5 (by decide) Corner.NorthEast

/-! ### Claim C8: rotation algebra on single-bit adjacencies -/


/-- C8: on single-bit adjacencies, rotating by S is the identity, rotating
by N twice is the identity, and rotating by E then W is the identity. -/
theorem rotate_dir_inverses (a : Nat) (ha : a ∈ single_bit_adjacencies) :
    rotate_dir a .S = some a ∧
      (rotate_dir a .N).bind (fun x => rotate_dir x .N) = some a ∧
      (rotate_dir a .E).bind (fun x => rotate_dir x .W) = some a := by
  have h : ∀ x ∈ single_bit_adjacencies,
      rotate_dir x .S = some x ∧
        (rotate_dir x .N).bind (fun y => rotate_dir y .N) = some x ∧
        (rotate_dir x .E).bind (fun y => rotate_dir y .W) = some x := by decide
  exact h a ha

theorem rotate_dir_inverses_witness :
    (rotate_dir 16 .N).bind (fun x => rotate_dir x .N) = some 16 :=
  (rotate_dir_inverses 16 (by decide)).2.1

/-! ### Claim C3: atlas width validation -/

/-- C3 counterexample: at D=2, P=1, F=0, icon_x=32, actual=128 both stated
error conditions hold at once — |e−a| = 64 = D·icon_x and 128 is an exact
multiple of e/D = 32 — refuting their mutual exclusivity; the code resolves
the overlap to ImageWidthOffByOne. -/
theorem width_check_conditions_overlap :
    width_check 2 1 0 32 128 = .offByOne 64 128 2 4 ∧
      Nat.dist (2 * (1 + 0) * 32) 128 = 2 * 32 ∧
      (2 * (1 + 0) * 32 / 2) ∣ 128 := by
  refine ⟨by decide, by decide, by decide⟩

theorem fract_below_tolerance_of_dvd {w a : Nat} (hw : 0 < w) (hdvd : w ∣ a) :
    fract_below_tolerance a w := by
  obtain ⟨k, rfl⟩ := hdvd
  refine ⟨hw, ?_⟩
  have hw' : (w : ℚ) ≠ 0 := by positivity
  have : ((w * k : ℕ) : ℚ) / (w : ℚ) = (k : ℚ) := by
    push_cast
    field_simp
  rw [this, Int.fract_natCast]
  norm_num

/-- C3 (amended): Step 1 accepts exactly width `D·(P+F)·icon_size.x`.  The
failure checks apply in order: ImageWidthOffByOne when `|e − a| = D·icon_x`;
otherwise ImageWidthOffByDirection when `a / (e/D)` has fractional part
within the 0.001 tolerance — in particular whenever `a` is a positive exact
multiple of `e/D`; ImproperImageWidth otherwise.  Overlapping conditions
resolve to the earlier check.  A 160-wide atlas against expected 128
(D=1, P=4, icon_x=32) yields ImageWidthOffByOne(128, 160, 4, 5). -/
theorem width_check_characterization (d p f ix a : Nat) :
    (width_check d p f ix a = .ok ↔ a = d * (p + f) * ix) ∧
    (∀ e, e = d * (p + f) * ix →
      (a ≠ e ∧ Nat.dist e a = d * ix →
        width_check d p f ix a = .offByOne e a (e / ix) (a / ix)) ∧
      (a ≠ e ∧ Nat.dist e a ≠ d * ix ∧ fract_below_tolerance a (e / d) →
        width_check d p f ix a = .offByDirection e a d (a / ((p + f) * ix))) ∧
      (a ≠ e ∧ Nat.dist e a ≠ d * ix ∧ 0 < e / d ∧ (e / d) ∣ a →
        width_check d p f ix a = .offByDirection e a d (a / ((p + f) * ix))) ∧
      (a ≠ e ∧ Nat.dist e a ≠ d * ix ∧ ¬ fract_below_tolerance a (e / d) →
        width_check d p f ix a = .improper e a)) ∧
    width_check 1 4 0 32 160 = .offByOne 128 160 4 5 := by
  have hu : width_check d p f ix a =
      (if d * (p + f) * ix = a then .ok
       else if Nat.dist (d * (p + f) * ix) a = d * ix then
         .offByOne (d * (p + f) * ix) a (d * (p + f) * ix / ix) (a / ix)
       else if fract_below_tolerance a (d * (p + f) * ix / d) then
         .offByDirection (d * (p + f) * ix) a d (a / ((p + f) * ix))
       else .improper (d * (p + f) * ix) a) := rfl
  refine ⟨?_, ?_, by decide⟩
  · rw [hu]
    by_cases h1 : d * (p + f) * ix = a
    · simp [h1]
    · rw [if_neg h1]
      constructor
      · intro hcontra
        exfalso
        by_cases h2 : Nat.dist (d * (p + f) * ix) a = d * ix
        · rw [if_pos h2] at hcontra
          exact WidthCheckResult.noConfusion hcontra
        · rw [if_neg h2] at hcontra
          by_cases h3 : fract_below_tolerance a (d * (p + f) * ix / d)
          · rw [if_pos h3] at hcontra
            exact WidthCheckResult.noConfusion hcontra
          · rw [if_neg h3] at hcontra
            exact WidthCheckResult.noConfusion hcontra
      · intro h2
        exact absurd h2.symm h1
  · rintro e rfl
    refine ⟨?_, ?_, ?_, ?_⟩
    · rintro ⟨hne, hdist⟩
      rw [hu, if_neg (fun h => hne h.symm), if_pos hdist]
    · rintro ⟨hne, hdist, hfract⟩
      rw [hu, if_neg (fun h => hne h.symm), if_neg hdist, if_pos hfract]
    · rintro ⟨hne, hdist, hpos, hdvd⟩
      rw [hu, if_neg (fun h => hne h.symm), if_neg hdist,
        if_pos (fract_below_tolerance_of_dvd hpos hdvd)]
    · rintro ⟨hne, hdist, hfract⟩
      rw [hu, if_neg (fun h => hne h.symm), if_neg hdist, if_neg hfract]

theorem width_check_characterization_witness :
    width_check 1 4 0 32 160 = .offByOne 128 160 4 5 :=
  ((width_check_characterization 1 4 0 32 160).2.1 128 (by norm_num)).1
    ⟨by norm_num, by decide⟩

/-! ### Claim C2: CardinalsRotated direction assembly -/

theorem push_frames_eq_zipWith {α : Type} :
    ∀ (blocks : List (List α)) (l : List α), l.length = blocks.length →
      push_frames blocks l = some (List.zipWith (fun b x => b ++ [x]) blocks l) := by
  intro blocks
  induction blocks with
  | nil =>
    intro l hl
    cases l with
    | nil => rfl
    | cons x xs => simp at hl
  | cons b bs ih =>
    intro l hl
    cases l with
    | nil => simp at hl
    | cons x xs =>
      show (push_frames bs xs).map (fun r => (b ++ [x]) :: r) = _
      rw [ih xs (by simpa using hl)]
      rfl


theorem fold_push_spec {α : Type} :
    ∀ (ls : List (List α)) (B : List (List α)) (m : Nat),
      (∀ l ∈ ls, l.length = B.length) → (∀ b ∈ B, b.length = m) →
      ∃ R, ls.foldlM (fun blocks l => push_frames blocks l) B = some R ∧
        R.length = B.length ∧ (∀ b ∈ R, b.length = m + ls.length) ∧
        ∀ f, R.get? f = (B.get? f).map (fun b => b ++ column f ls) := by
  intro ls
  induction ls with
  | nil =>
    intro B m _ hB
    refine ⟨B, rfl, rfl, by simpa using hB, ?_⟩
    intro f
    simp [column, Option.map_id]
  | cons l ls ih =>
    intro B m hls hB
    have hl : l.length = B.length := hls l (List.mem_cons_self _ _)
    have hpush := push_frames_eq_zipWith B l hl
    set B' := List.zipWith (fun b x => b ++ [x]) B l with hB'
    have hB'len : B'.length = B.length := by
      rw [hB', List.length_zipWith, hl, min_self]
    have hB'mem : ∀ b ∈ B', b.length = m + 1 := by
      intro b hb
      rcases List.mem_iff_get?.mp hb with ⟨j, hj⟩
      rw [hB', List.get?_zipWith'] at hj
      cases hBj : B.get? j with
      | none => rw [hBj] at hj; simp at hj
      | some b0 =>
        cases hlj : l.get? j with
        | none => rw [hBj, hlj] at hj; simp at hj
        | some x0 =>
          rw [hBj, hlj] at hj
          simp at hj
          have hb0 : b0 ∈ B := List.get?_mem hBj
          subst hj
          simp [hB b0 hb0]
    obtain ⟨R, hR, hRlen, hRmem, hRget⟩ :=
      ih B' (m + 1) (fun l' hl' => by rw [hB'len]; exact hls l' (List.mem_cons_of_mem _ hl'))
        hB'mem
    refine ⟨R, ?_, by rw [hRlen, hB'len], ?_, ?_⟩
    · rw [List.foldlM_cons, hpush]
      simpa using hR
    · intro b hb
      have hb' := hRmem b hb
      simp only [List.length_cons]
      omega
    · intro f
      rw [hRget f, hB', List.get?_zipWith']
      cases hBf : B.get? f with
      | none =>
        have hlf : l.get? f = none := by
          rw [List.get?_eq_none] at hBf ⊢
          omega
        simp [column, hlf]
      | some b0 =>
        obtain ⟨hf, _⟩ := List.get?_eq_some.mp hBf
        cases hlf : l.get? f with
        | none =>
          exfalso
          rw [List.get?_eq_none] at hlf
          omega
        | some x0 =>
          simp only [Option.map_some', Option.bind_some]
          have hlf' : l[f]? = some x0 := by rwa [← List.get?_eq_getElem?]
          simp [column, List.filterMap_cons, hlf', List.append_assoc]

theorem flatten_get?_stride {α : Type} {k : Nat} :
    ∀ (B : List (List α)), (∀ b ∈ B, b.length = k) →
      ∀ q i, i < k →
        B.flatten.get? (q * k + i) = (B.get? q).bind (fun b => b.get? i) := by
  intro B
  induction B with
  | nil => intro _ q i _; simp
  | cons b B ih =>
    intro hB q i hi
    have hb : b.length = k := hB b (List.mem_cons_self _ _)
    cases q with
    | zero =>
      have hidx : 0 * k + i = i := by omega
      rw [hidx, List.flatten_cons, List.get?_append (by omega)]
      simp
    | succ q =>
      have hmul : (q + 1) * k = q * k + k := Nat.succ_mul q k
      have hge : b.length ≤ (q + 1) * k + i := by
        rw [hb, hmul]
        omega
      rw [List.flatten_cons, List.get?_append_right hge]
      have harith : (q + 1) * k + i - b.length = q * k + i := by
        rw [hb, hmul]
        omega
      rw [harith, ih (fun x hx => hB x (List.mem_cons_of_mem _ hx)) q i hi]
      simp

set_option maxRecDepth 10000 in
theorem rotate_to_cardinal_isSome :
    ∀ a < 256, ∀ d ∈ dmi_cardinals, (rotate_to a d).isSome = true := by decide

/-- C2: with `direction_strategy = CardinalsRotated` the emitted icon state
has 4 directions, and for each output-direction index `i` the frames placed
at that index are `assembled[STANDARD][A.rotate_to(outDirs[i])]`: the
standard (South) direction's composition looked up under the rotated
adjacency key. -/
theorem cardinals_rotated_assembly {α : Type} (assembled : Direction → Nat → List α)
    (a numFrames : Nat) (ha : a < 256)
    (hlen : ∀ r, (assembled .S r).length = numFrames) :
    slice_dir_count .CardinalsRotated = 4 ∧
    ∃ images,
      slice_state_images .CardinalsRotated assembled a numFrames = some images ∧
      images.length = numFrames * 4 ∧
      ∀ i d, (output_vec .CardinalsRotated).get? i = some d →
        ∀ r, rotate_to a d = some r →
          ∀ f, f < numFrames →
            images.get? (f * 4 + i) = (assembled .S r).get? f := by
  obtain ⟨rS, hrS⟩ := Option.isSome_iff_exists.mp
    (rotate_to_cardinal_isSome a ha .S (by decide))
  obtain ⟨rN, hrN⟩ := Option.isSome_iff_exists.mp
    (rotate_to_cardinal_isSome a ha .N (by decide))
  obtain ⟨rE, hrE⟩ := Option.isSome_iff_exists.mp
    (rotate_to_cardinal_isSome a ha .E (by decide))
  obtain ⟨rW, hrW⟩ := Option.isSome_iff_exists.mp
    (rotate_to_cardinal_isSome a ha .W (by decide))
  obtain ⟨R, hR, hRlen, hRmem, hRget⟩ := fold_push_spec
    [assembled .S rS, assembled .S rN, assembled .S rE, assembled .S rW]
    (List.replicate numFrames ([] : List α)) 0
    (by
      intro l hl
      rw [List.length_replicate]
      simp only [List.mem_cons, List.mem_singleton] at hl
      rcases hl with rfl | rfl | rfl | rfl | h
      · exact hlen rS
      · exact hlen rN
      · exact hlen rE
      · exact hlen rW
      · simp at h)
    (by
      intro b hb
      rw [List.eq_of_mem_replicate hb]
      rfl)
  have hRlen' : R.length = numFrames := by
    rw [hRlen, List.length_replicate]
  have hRmem4 : ∀ b ∈ R, b.length = 4 := fun b hb => hRmem b hb
  have himg : slice_state_images .CardinalsRotated assembled a numFrames =
      some R.flatten := by
    unfold slice_state_images
    have hvec : output_vec .CardinalsRotated = [.S, .N, .E, .W] := rfl
    rw [hvec]
    simp only [List.foldlM_cons, List.foldlM_nil, Option.bind_eq_bind] at hR
    simp only [List.foldlM_cons, List.foldlM_nil, lookup_frames, hrS, hrN, hrE, hrW,
      Option.map_some', Option.bind_eq_bind, Option.some_bind]
    rw [hR]
    rfl
  refine ⟨rfl, R.flatten, himg, ?_, ?_⟩
  · rw [List.length_flatten]
    have hmap : R.map List.length = List.replicate numFrames 4 := by
      apply List.eq_replicate_iff.mpr
      refine ⟨by rw [List.length_map, hRlen'], ?_⟩
      intro x hx
      rcases List.mem_map.mp hx with ⟨b, hb, rfl⟩
      exact hRmem4 b hb
    rw [hmap, List.sum_replicate]
    simp [Nat.mul_comm]
  · intro i d hid r hrot f hf
    have hvec : output_vec .CardinalsRotated = [.S, .N, .E, .W] := rfl
    rw [hvec] at hid
    have hi4 : i < 4 := by
      by_contra hcon
      rw [List.get?_eq_none.mpr (by simpa using Nat.le_of_not_lt hcon)] at hid
      exact Option.noConfusion hid
    rw [flatten_get?_stride R hRmem4 f i hi4, hRget f]
    have hrep : (List.replicate numFrames ([] : List α)).get? f = some [] := by
      rw [List.get?_eq_get (by rw [List.length_replicate]; exact hf)]
      simp
    rw [hrep]
    simp only [Option.map_some', List.nil_append, Option.some_bind]
    have hgS : (assembled Direction.S rS).get? f =
        some ((assembled Direction.S rS).get ⟨f, by rw [hlen rS]; exact hf⟩) :=
      List.get?_eq_get _
    have hgN' : (assembled Direction.S rN).get? f =
        some ((assembled Direction.S rN).get ⟨f, by rw [hlen rN]; exact hf⟩) :=
      List.get?_eq_get _
    have hgE' : (assembled Direction.S rE).get? f =
        some ((assembled Direction.S rE).get ⟨f, by rw [hlen rE]; exact hf⟩) :=
      List.get?_eq_get _
    have hgW' : (assembled Direction.S rW).get? f =
        some ((assembled Direction.S rW).get ⟨f, by rw [hlen rW]; exact hf⟩) :=
      List.get?_eq_get _
    have hcol : column f [assembled .S rS, assembled .S rN, assembled .S rE,
        assembled .S rW] = [(assembled .S rS).get ⟨f, by rw [hlen rS]; exact hf⟩,
          (assembled .S rN).get ⟨f, by rw [hlen rN]; exact hf⟩,
          (assembled .S rE).get ⟨f, by rw [hlen rE]; exact hf⟩,
          (assembled .S rW).get ⟨f, by rw [hlen rW]; exact hf⟩] := by
      simp only [column, List.filterMap_cons, List.filterMap_nil, hgS, hgN', hgE', hgW']
    rw [hcol]
    interval_cases i
    · have hd : some Direction.S = some d := hid
      injection hd with hd
      subst hd
      rw [hrS] at hrot
      injection hrot with hrot
      subst hrot
      rw [hgS]
      rfl
    · have hd : some Direction.N = some d := hid
      injection hd with hd
      subst hd
      rw [hrN] at hrot
      injection hrot with hrot
      subst hrot
      rw [hgN']
      rfl
    · have hd : some Direction.E = some d := hid
      injection hd with hd
      subst hd
      rw [hrE] at hrot
      injection hrot with hrot
      subst hrot
      rw [hgE']
      rfl
    · have hd : some Direction.W = some d := hid
      injection hd with hd
      subst hd
      rw [hrW] at hrot
      injection hrot with hrot
      subst hrot
      rw [hgW']
      rfl

theorem cardinals_rotated_assembly_witness :
    ∃ images,
      slice_state_images .CardinalsRotated (fun _ x => [x]) 1 1 = some images ∧
        images.get? (0 * 4 + 1) = ([(2 : Nat)] : List Nat).get? 0 := by
  obtain ⟨_, images, himg, _, hidx⟩ :=
    cardinals_rotated_assembly (fun _ x => [x]) 1 1 (by norm_num) (fun r => rfl)
  exact ⟨images, himg, hidx 1 Direction.N (by decide) 2 (by decide) 0 (by norm_num)⟩

/-! ### Claims C9/C10: frame deduplication -/

theorem chunks_exact_go_irrel {α : Type} (k : Nat) :
    ∀ f1 f2 (l : List α), l.length ≤ f1 → l.length ≤ f2 →
      chunks_exact_go k f1 l = chunks_exact_go k f2 l := by
  intro f1
  induction f1 with
  | zero =>
    intro f2 l h1 _
    have hl : l = [] := List.length_eq_zero.mp (Nat.le_zero.mp h1)
    subst hl
    cases f2 with
    | zero => rfl
    | succ f2 =>
      show [] = if k = 0 ∨ ([] : List α).length < k then [] else _
      rcases Nat.eq_zero_or_pos k with hk | hk
      · rw [if_pos (Or.inl hk)]
      · rw [if_pos (Or.inr (by simpa using hk))]
  | succ f1 ih =>
    intro f2 l h1 h2
    by_cases hc : k = 0 ∨ l.length < k
    · cases f2 with
      | zero =>
        have hl : l = [] := List.length_eq_zero.mp (Nat.le_zero.mp h2)
        subst hl
        show (if k = 0 ∨ ([] : List α).length < k then [] else _) = []
        rw [if_pos hc]
      | succ f2 =>
        show (if _ then _ else _) = (if _ then _ else _)
        rw [if_pos hc, if_pos hc]
    · push_neg at hc
      obtain ⟨hk, hlen⟩ := hc
      have hkpos : 0 < k := Nat.pos_of_ne_zero hk
      cases f2 with
      | zero => omega
      | succ f2 =>
        show (if _ then _ else _) = (if _ then _ else _)
        rw [if_neg (by push_neg; exact ⟨hk, hlen⟩), if_neg (by push_neg; exact ⟨hk, hlen⟩)]
        congr 1
        exact ih f2 (l.drop k) (by simp; omega) (by simp; omega)

theorem chunks_exact_eq {α : Type} (k : Nat) (l : List α) :
    chunks_exact k l =
      if k = 0 ∨ l.length < k then [] else l.take k :: chunks_exact k (l.drop k) := by
  have h1 : chunks_exact k l = chunks_exact_go k (l.length + 1) l :=
    chunks_exact_go_irrel k l.length (l.length + 1) l (le_refl _) (by omega)
  rw [h1]
  show (if k = 0 ∨ l.length < k then []
    else l.take k :: chunks_exact_go k l.length (l.drop k)) = _
  by_cases hc : k = 0 ∨ l.length < k
  · rw [if_pos hc, if_pos hc]
  · rw [if_neg hc, if_neg hc]
    congr 1
    show chunks_exact_go k l.length (l.drop k) = chunks_exact k (l.drop k)
    unfold chunks_exact
    push_neg at hc
    exact chunks_exact_go_irrel k l.length (l.drop k).length (l.drop k)
      (by simp) (le_refl _)

theorem chunks_exact_prepend {α : Type} (k : Nat) (hk : 0 < k) (b l : List α)
    (hb : b.length = k) : chunks_exact k (b ++ l) = b :: chunks_exact k l := by
  rw [chunks_exact_eq]
  rw [if_neg (by push_neg; simp [List.length_append, hb]; omega)]
  congr 1
  · rw [← hb]
    exact List.take_left b l
  · rw [show (b ++ l).drop k = l by rw [← hb]; exact List.drop_left b l]

theorem chunks_exact_go_length_mem {α : Type} (k : Nat) :
    ∀ fuel (l : List α), ∀ c ∈ chunks_exact_go k fuel l, c.length = k := by
  intro fuel
  induction fuel with
  | zero => intro l c hc; simp [chunks_exact_go] at hc
  | succ fuel ih =>
    intro l c hc
    by_cases hcond : k = 0 ∨ l.length < k
    · rw [show chunks_exact_go k (fuel + 1) l = [] from by
        show (if _ then _ else _) = _; rw [if_pos hcond]] at hc
      simp at hc
    · rw [show chunks_exact_go k (fuel + 1) l =
          l.take k :: chunks_exact_go k fuel (l.drop k) from by
        show (if _ then _ else _) = _; rw [if_neg hcond]] at hc
      push_neg at hcond
      rcases List.mem_cons.mp hc with rfl | hc'
      · rw [List.length_take]
        omega
      · exact ih (l.drop k) c hc'

theorem chunks_exact_length_mem {α : Type} (k : Nat) (l : List α) :
    ∀ c ∈ chunks_exact k l, c.length = k :=
  chunks_exact_go_length_mem k l.length l

theorem chunks_exact_flatten {α : Type} (k : Nat) (hk : 0 < k) :
    ∀ (gs : List (List α)), (∀ g ∈ gs, g.length = k) →
      chunks_exact k gs.flatten = gs := by
  intro gs
  induction gs with
  | nil =>
    intro _
    rw [List.flatten_nil, chunks_exact_eq]
    rw [if_pos (Or.inr (by simpa using hk))]
  | cons g gs ih =>
    intro hmem
    rw [List.flatten_cons,
      chunks_exact_prepend k hk g gs.flatten (hmem g (List.mem_cons_self _ _)),
      ih (fun x hx => hmem x (List.mem_cons_of_mem _ hx))]

theorem chunks_exact_count {α : Type} (k : Nat) (hk : 0 < k) :
    ∀ (n : Nat) (l : List α), l.length = k * n → (chunks_exact k l).length = n := by
  intro n
  induction n with
  | zero =>
    intro l hl
    rw [chunks_exact_eq, if_pos (Or.inr (by omega))]
    rfl
  | succ n ih =>
    intro l hl
    have hklen : k ≤ l.length := by
      rw [hl, Nat.mul_succ]
      omega
    rw [chunks_exact_eq, if_neg (by push_neg; omega)]
    rw [List.length_cons, ih (l.drop k) (by simp [hl, Nat.mul_succ])]

theorem sum_set_add (l : List ℚ) (d : ℚ) :
    ∀ i, i < l.length → (l.set i (l.getD i 0 + d)).sum = l.sum + d := by
  induction l with
  | nil => intro i hi; simp at hi
  | cons x xs ih =>
    intro i hi
    cases i with
    | zero => simp [List.getD]; ring
    | succ i =>
      have hi' : i < xs.length := by simpa using hi
      simp only [List.set_cons_succ, List.sum_cons, List.getD_cons_succ]
      rw [ih i hi']
      ring

theorem getLast?_eq_getD {β : Type} (l : List β) (dflt : β) (hne : l ≠ []) :
    l.getLast? = some (l.getD (l.length - 1) dflt) := by
  have hlen : 0 < l.length := List.length_pos.mpr hne
  rw [List.getLast?_eq_getElem?, List.getD_eq_getElem?_getD,
    List.getElem?_eq_getElem (by omega)]
  rfl

theorem dedupe_fold_spec {α : Type} [DecidableEq α] :
    ∀ (pairs : List (ℚ × List α)) (acc : AccumulatedAnim α),
      acc.current_frame = acc.frames.length →
      acc.current_frame = acc.delays.length →
      List.Chain' (fun x y => x ≠ y) acc.frames →
      (dedupe_fold pairs acc).current_frame = (dedupe_fold pairs acc).frames.length ∧
      (dedupe_fold pairs acc).current_frame = (dedupe_fold pairs acc).delays.length ∧
      List.Chain' (fun x y => x ≠ y) (dedupe_fold pairs acc).frames ∧
      (dedupe_fold pairs acc).delays.sum =
        acc.delays.sum + (pairs.map Prod.fst).sum ∧
      (∀ g ∈ (dedupe_fold pairs acc).frames,
        g ∈ acc.frames ∨ g ∈ pairs.map Prod.snd) ∧
      (dedupe_fold pairs acc).frames.head? =
        acc.frames.head?.or (pairs.map Prod.snd).head? := by
  intro pairs
  induction pairs with
  | nil =>
    intro acc h1 h2 h3
    exact ⟨h1, h2, h3, by simp [dedupe_fold], fun g hg => Or.inl hg,
      by simp [dedupe_fold]⟩
  | cons pr rest ih =>
    obtain ⟨d, g⟩ := pr
    intro acc h1 h2 h3
    have hstep : dedupe_fold ((d, g) :: rest) acc =
        if acc.current_frame ≠ 0 ∧ acc.frames.getD (acc.current_frame - 1) [] = g then
          dedupe_fold rest
            { acc with
              delays := acc.delays.set (acc.current_frame - 1)
                (acc.delays.getD (acc.current_frame - 1) 0 + d) }
        else
          dedupe_fold rest
            { delays := acc.delays ++ [d], frames := acc.frames ++ [g],
              current_frame := acc.current_frame + 1 } := rfl
    by_cases hc : acc.current_frame ≠ 0 ∧ acc.frames.getD (acc.current_frame - 1) [] = g
    · rw [hstep, if_pos hc]
      obtain ⟨hcf, _⟩ := hc
      have hidx : acc.current_frame - 1 < acc.delays.length := by omega
      obtain ⟨g1, g2, g3, g4, g5, g6⟩ := ih
        { acc with
          delays := acc.delays.set (acc.current_frame - 1)
            (acc.delays.getD (acc.current_frame - 1) 0 + d) }
        (by simpa using h1) (by simpa using h2) h3
      refine ⟨g1, g2, g3, ?_, ?_, ?_⟩
      · rw [g4]
        show (acc.delays.set (acc.current_frame - 1)
          (acc.delays.getD (acc.current_frame - 1) 0 + d)).sum + _ = _
        rw [sum_set_add acc.delays d (acc.current_frame - 1) hidx]
        simp only [List.map_cons, List.sum_cons]
        ring
      · intro x hx
        rcases g5 x hx with hin | hin
        · exact Or.inl hin
        · exact Or.inr (List.mem_cons_of_mem _ hin)
      · rw [g6]
        have hne : acc.frames ≠ [] := by
          intro hnil
          rw [hnil] at h1
          simp at h1
          omega
        cases hfr : acc.frames with
        | nil => exact absurd hfr hne
        | cons hd tl => simp
    · rw [hstep, if_neg hc]
      have hchain2 : List.Chain' (fun x y => x ≠ y) (acc.frames ++ [g]) := by
        rw [List.chain'_append]
        refine ⟨h3, List.chain'_singleton g, ?_⟩
        intro x hx y hy
        simp only [List.head?_cons, Option.mem_def, Option.some.injEq] at hy
        subst hy
        by_cases hcf : acc.current_frame = 0
        · exfalso
          have : acc.frames = [] := by
            rw [hcf] at h1
            exact (List.length_eq_zero.mp h1.symm)
          rw [this] at hx
          simp at hx
        · have hne : acc.frames ≠ [] := by
            intro hnil
            rw [hnil] at h1
            simp at h1
            omega
          rw [getLast?_eq_getD acc.frames [] hne] at hx
          simp only [Option.mem_def, Option.some.injEq] at hx
          subst hx
          intro hcontra
          apply hc
          refine ⟨hcf, ?_⟩
          rw [← h1] at hcontra
          exact hcontra
      obtain ⟨g1, g2, g3, g4, g5, g6⟩ := ih
        { delays := acc.delays ++ [d], frames := acc.frames ++ [g],
          current_frame := acc.current_frame + 1 }
        (by simp [h1]) (by simp [h2]) hchain2
      refine ⟨g1, g2, g3, ?_, ?_, ?_⟩
      · rw [g4]
        show (acc.delays ++ [d]).sum + _ = _
        simp only [List.sum_append, List.sum_cons, List.sum_nil, List.map_cons]
        ring
      · intro x hx
        rcases g5 x hx with hin | hin
        · rcases List.mem_append.mp hin with h | h
          · exact Or.inl h
          · simp only [List.mem_singleton] at h
            subst h
            exact Or.inr (List.mem_cons_self _ _)
        · exact Or.inr (List.mem_cons_of_mem _ hin)
      · rw [g6]
        show ((acc.frames ++ [g]).head?).or _ = _
        rw [List.head?_append]
        cases hh : acc.frames.head? with
        | none => simp [hh]
        | some hd => simp [hh]

theorem dedupe_fold_no_merge {α : Type} [DecidableEq α] :
    ∀ (pairs : List (ℚ × List α)) (acc : AccumulatedAnim α),
      acc.current_frame = acc.frames.length →
      List.Chain' (fun x y => x ≠ y) (acc.frames ++ pairs.map Prod.snd) →
      dedupe_fold pairs acc =
        ⟨acc.delays ++ pairs.map Prod.fst, acc.frames ++ pairs.map Prod.snd,
          acc.current_frame + pairs.length⟩ := by
  intro pairs
  induction pairs with
  | nil =>
    intro acc h1 _
    show acc = _
    cases acc
    simp
  | cons pr rest ih =>
    obtain ⟨d, g⟩ := pr
    intro acc h1 hchain
    simp only [List.map_cons] at hchain
    have hstep : dedupe_fold ((d, g) :: rest) acc =
        if acc.current_frame ≠ 0 ∧ acc.frames.getD (acc.current_frame - 1) [] = g then
          dedupe_fold rest
            { acc with
              delays := acc.delays.set (acc.current_frame - 1)
                (acc.delays.getD (acc.current_frame - 1) 0 + d) }
        else
          dedupe_fold rest
            { delays := acc.delays ++ [d], frames := acc.frames ++ [g],
              current_frame := acc.current_frame + 1 } := rfl
    have hcond : ¬(acc.current_frame ≠ 0 ∧
        acc.frames.getD (acc.current_frame - 1) [] = g) := by
      rintro ⟨hcf, hlast⟩
      have hne : acc.frames ≠ [] := by
        intro hnil
        rw [hnil] at h1
        simp at h1
        omega
      rw [List.chain'_append] at hchain
      obtain ⟨_, _, hlink⟩ := hchain
      have hx : acc.frames.getD (acc.current_frame - 1) [] ∈ acc.frames.getLast? := by
        rw [getLast?_eq_getD acc.frames [] hne]
        simp only [Option.mem_def, Option.some.injEq]
        rw [h1]
      exact hlink _ hx g (by simp) hlast
    rw [hstep, if_neg hcond]
    rw [ih ⟨acc.delays ++ [d], acc.frames ++ [g], acc.current_frame + 1⟩
      (by simp [h1])
      (by rw [List.append_assoc]; simpa using hchain)]
    simp only [List.map_cons, AccumulatedAnim.mk.injEq]
    refine ⟨by simp, by simp, by simp only [List.length_cons]; omega⟩

theorem dedupe_frames_of_le_one {α : Type} [DecidableEq α] (s : IconState α)
    (h : s.frames ≤ 1) : dedupe_frames s = some s := by
  unfold dedupe_frames
  rw [if_pos h]

theorem dedupe_frames_of_no_delay {α : Type} [DecidableEq α] (s : IconState α)
    (h : s.delay = none) : dedupe_frames s = some s := by
  unfold dedupe_frames
  by_cases hf : s.frames ≤ 1
  · rw [if_pos hf]
  · rw [if_neg hf, h]

theorem dedupe_frames_of_dirs_zero {α : Type} [DecidableEq α] (s : IconState α)
    (cd : List ℚ) (hf : ¬s.frames ≤ 1) (hd : s.delay = some cd) (h0 : s.dirs = 0) :
    dedupe_frames s = none := by
  unfold dedupe_frames
  rw [if_neg hf, hd]
  show (if s.dirs = 0 then none else _) = none
  rw [if_pos h0]

theorem dedupe_frames_processed {α : Type} [DecidableEq α] (s : IconState α)
    (cd : List ℚ) (hf : ¬s.frames ≤ 1) (hd : s.delay = some cd) (h0 : s.dirs ≠ 0) :
    dedupe_frames s = some { s with
      frames := (dedupe_fold (cd.zip (chunks_exact s.dirs s.images))
        ⟨[], [], 0⟩).current_frame,
      images := (dedupe_fold (cd.zip (chunks_exact s.dirs s.images))
        ⟨[], [], 0⟩).frames.flatten,
      delay := some (dedupe_fold (cd.zip (chunks_exact s.dirs s.images))
        ⟨[], [], 0⟩).delays } := by
  unfold dedupe_frames
  rw [if_neg hf, hd]
  show (if s.dirs = 0 then none else _) = _
  rw [if_neg h0]

/-- C9: `dedupe_frames` is idempotent; a state with `frames ≤ 1` or a
missing delay vector passes through unchanged; and the direction-groups of
any processed output contain no two consecutive equal groups. -/
theorem dedupe_frames_idempotent {α : Type} [DecidableEq α] (s : IconState α) :
    (dedupe_frames s).bind dedupe_frames = dedupe_frames s ∧
    (s.frames ≤ 1 ∨ s.delay = none → dedupe_frames s = some s) ∧
    (∀ t cd, ¬s.frames ≤ 1 → s.delay = some cd → dedupe_frames s = some t →
      List.Chain' (fun x y => x ≠ y) (chunks_exact t.dirs t.images)) := by
  obtain ⟨nm, dir, fr, im, de, rew⟩ := s
  by_cases hf : fr ≤ 1
  · rw [dedupe_frames_of_le_one _ hf]
    refine ⟨?_, fun _ => rfl, fun t cd hf' _ _ => absurd hf hf'⟩
    rw [Option.some_bind]
    exact dedupe_frames_of_le_one _ hf
  · cases hde : de with
    | none =>
      rw [dedupe_frames_of_no_delay _ (by simpa using hde)]
      refine ⟨?_, fun _ => rfl, ?_⟩
      · rw [Option.some_bind]
        exact dedupe_frames_of_no_delay _ (by simpa using hde)
      · intro t cd _ hd' _
        simp at hd'
    | some cd =>
      by_cases h0 : dir = 0
      · rw [dedupe_frames_of_dirs_zero _ cd (by simpa using hf) rfl (by simpa using h0)]
        refine ⟨rfl, ?_, fun t cd' _ _ ht => Option.noConfusion ht⟩
        intro h
        rcases h with h | h
        · exact absurd (by simpa using h) hf
        · exact Option.noConfusion h
      · have hproc := dedupe_frames_processed ⟨nm, dir, fr, im, some cd, rew⟩ cd
          (by simpa using hf) rfl (by simpa using h0)
        simp only at hproc
        obtain ⟨g1, g2, g3, _, g5, _⟩ :=
          dedupe_fold_spec (cd.zip (chunks_exact dir im))
            (⟨[], [], 0⟩ : AccumulatedAnim α) rfl rfl List.chain'_nil
        set r := dedupe_fold (cd.zip (chunks_exact dir im))
          (⟨[], [], 0⟩ : AccumulatedAnim α) with hr
        have hglen : ∀ g ∈ r.frames, g.length = dir := by
          intro g hg
          rcases g5 g hg with h | h
          · simp at h
          · rcases List.mem_map.mp h with ⟨pr, hpr, rfl⟩
            exact chunks_exact_length_mem dir im pr.2 (List.of_mem_zip hpr).2
        have hchunks : chunks_exact dir r.frames.flatten = r.frames :=
          chunks_exact_flatten dir (Nat.pos_of_ne_zero h0) r.frames hglen
        refine ⟨?_, ?_, ?_⟩
        · rw [hproc, Option.some_bind]
          by_cases hcf : r.current_frame ≤ 1
          · exact dedupe_frames_of_le_one _ hcf
          · rw [dedupe_frames_processed _ r.delays (by simpa using hcf) rfl
              (by simpa using h0)]
            simp only at hchunks ⊢
            rw [hchunks]
            have hsnd : (r.delays.zip r.frames).map Prod.snd = r.frames :=
              List.map_snd_zip _ _ (by rw [← g1, ← g2])
            have hfst : (r.delays.zip r.frames).map Prod.fst = r.delays :=
              List.map_fst_zip _ _ (by rw [← g1, ← g2])
            have hnm := dedupe_fold_no_merge (r.delays.zip r.frames)
              (⟨[], [], 0⟩ : AccumulatedAnim α) rfl (by simpa [hsnd] using g3)
            rw [hnm]
            simp only [hsnd, hfst, List.nil_append, List.length_zip, IconState.mk.injEq,
              Nat.zero_add, true_and, and_true]
            rw [← g1, ← g2, min_self]
        · intro h
          rcases h with h | h
          · exact absurd (by simpa using h) hf
          · exact Option.noConfusion h
        · intro t cd' _ _ ht
          rw [hproc] at ht
          injection ht with ht
          rw [← ht]
          simp only
          rw [hchunks]
          exact g3

theorem dedupe_frames_idempotent_witness :
    dedupe_frames (α := Nat) ⟨"x", 1, 1, [5], none, false⟩ =
      some ⟨"x", 1, 1, [5], none, false⟩ :=
  (dedupe_frames_idempotent ⟨"x", 1, 1, [5], none, false⟩).2.1 (Or.inr rfl)

/-- C10 counterexample: a zero-direction state satisfies the claim's stated
hypotheses (frames = 2 > 1, delay length = frames, images length =
dirs·frames = 0), yet `images.chunks_exact(0)` panics, so `dedupe_frames`
returns no state at all. -/
theorem dedupe_frames_dirs_zero_panics :
    dedupe_frames (α := Nat) ⟨"x", 0, 2, [], some [1, 1], false⟩ = none ∧
      ([] : List Nat).length = 0 * 2 ∧ ([(1 : ℚ), 1] : List ℚ).length = 2 :=
  ⟨dedupe_frames_of_dirs_zero _ [1, 1] (by norm_num) rfl rfl, rfl, rfl⟩

/-- C10 (amended): for every state with `frames > 1`, a delay vector of
length `frames`, images of length `dirs·frames` and a positive direction
count, `dedupe_frames` returns a state that preserves the total delay,
retains the first direction-group of images, and satisfies
`delay length = frames` and `images length = dirs · frames`. -/
theorem dedupe_frames_shape {α : Type} [DecidableEq α] (s : IconState α)
    (cd : List ℚ) (hf : 1 < s.frames) (hd : s.delay = some cd)
    (hlen : cd.length = s.frames) (him : s.images.length = s.dirs * s.frames)
    (hdirs : 0 < s.dirs) :
    ∃ t td, dedupe_frames s = some t ∧ t.delay = some td ∧
      td.sum = cd.sum ∧ td.length = t.frames ∧
      t.images.length = t.dirs * t.frames ∧ t.dirs = s.dirs ∧
      (chunks_exact t.dirs t.images).head? =
        (chunks_exact s.dirs s.images).head? := by
  have hproc := dedupe_frames_processed s cd (by omega) hd (by omega)
  obtain ⟨g1, g2, g3, g4, g5, g6⟩ :=
    dedupe_fold_spec (cd.zip (chunks_exact s.dirs s.images))
      (⟨[], [], 0⟩ : AccumulatedAnim α) rfl rfl List.chain'_nil
  set r := dedupe_fold (cd.zip (chunks_exact s.dirs s.images))
    (⟨[], [], 0⟩ : AccumulatedAnim α) with hr
  have hcount : (chunks_exact s.dirs s.images).length = s.frames :=
    chunks_exact_count s.dirs hdirs s.frames s.images him
  have hfst : (cd.zip (chunks_exact s.dirs s.images)).map Prod.fst = cd :=
    List.map_fst_zip _ _ (by rw [hlen, hcount])
  have hsnd : (cd.zip (chunks_exact s.dirs s.images)).map Prod.snd =
      chunks_exact s.dirs s.images :=
    List.map_snd_zip _ _ (by rw [hlen, hcount])
  have hglen : ∀ g ∈ r.frames, g.length = s.dirs := by
    intro g hg
    rcases g5 g hg with h | h
    · simp at h
    · rcases List.mem_map.mp h with ⟨pr, hpr, rfl⟩
      exact chunks_exact_length_mem s.dirs s.images pr.2 (List.of_mem_zip hpr).2
  have hflat : r.frames.flatten.length = s.dirs * r.current_frame := by
    rw [List.length_flatten]
    have hmap : r.frames.map List.length = List.replicate r.frames.length s.dirs :=
      List.eq_replicate_iff.mpr ⟨by simp, by
        intro x hx
        rcases List.mem_map.mp hx with ⟨b, hb, rfl⟩
        exact hglen b hb⟩
    rw [hmap, List.sum_replicate, smul_eq_mul, g1, Nat.mul_comm]
  refine ⟨_, r.delays, hproc, rfl, ?_, ?_, ?_, rfl, ?_⟩
  · rw [g4, hfst]
    simp
  · exact g2.symm
  · show r.frames.flatten.length = s.dirs * r.current_frame
    exact hflat
  · show (chunks_exact s.dirs r.frames.flatten).head? = _
    rw [chunks_exact_flatten s.dirs hdirs r.frames hglen]
    rw [g6, hsnd]
    simp

theorem dedupe_frames_shape_witness :
    ∃ t td,
      dedupe_frames (α := Nat) ⟨"x", 1, 4, [7, 7, 7, 7], some [1, 1, 1, 1], false⟩ =
        some t ∧
      t.delay = some td ∧ td.sum = ([(1 : ℚ), 1, 1, 1] : List ℚ).sum ∧
      td.length = t.frames ∧ t.images.length = t.dirs * t.frames ∧
      t.dirs = 1 ∧
      (chunks_exact t.dirs t.images).head? = (chunks_exact 1 [7, 7, 7, 7]).head? :=
  dedupe_frames_shape ⟨"x", 1, 4, [7, 7, 7, 7], some [1, 1, 1, 1], false⟩
    [1, 1, 1, 1] (by norm_num) rfl rfl rfl (by norm_num)

/-! ### Claim C5: dropped-state classification -/

/-- C5: on Scenario E's input the classification never reaches
DroppedStates: walking the unselected suffixes calls
`"decoration".parse::<Adjacency>()`, which finds 'd' at byte index 0 and
panics on the `remove(d_location - 1)` usize underflow, instead of
returning the claimed `DroppedStates("(decoration)")`. -/
theorem recon_classify_decoration_panics :
    from_str "decoration".data = .panic ∧
    recon_classify
      (["prefix-0", "prefix-1", "prefix-2", "prefix-3", "prefix-4", "prefix-5",
        "prefix-6", "prefix-7", "prefix-8", "prefix-9", "prefix-10", "prefix-11",
        "prefix-12", "prefix-13", "prefix-14", "prefix-15",
        "decoration"].map String.data)
      (["0", "1", "2", "3", "4", "5", "6", "7", "8", "9", "10", "11", "12", "13",
        "14", "15"].map String.data) = .panic := by
  constructor
  · decide
  · decide

/-! ### Claim C4: delay reconciliation -/

/-- C4: a selected state whose delay vector `[2]` differs from the defined
canonical vector `[1, 1]` but aligns exactly with its consecutive
subdivisions is recorded as an InconsistentDelay problem and skipped — the
`(delay_count - frame_count).abs() < 0.001` comparison fires precisely when
the totals agree — even though the expansion walk itself succeeds on that
very state, duplicating the frame block once per canonical step. -/
theorem recon_grouped_frames_rejects_aligned :
    recon_grouped_frames (some [1, 1]) (some [2]) [[(0 : Nat)]] = .inconsistent ∧
    expand_frames [1, 1] [((2 : ℚ), [(0 : Nat)])] 0 = .ok [[0], [0]] := by
  constructor
  · simp [recon_grouped_frames]
    norm_num
  · simp [expand_frames, expand_while, expand_while_go]
    norm_num [expand_while_go]
    rfl
